import Mathlib

/-!
Verification of the sum-check protocol implementation in
`src/sum_check/src/sum_check_protocol.rs`.

The file embeds the Rust source shallowly:

* `Fq` is the BN254 base field `ark_bn254::Fq`, i.e. integers modulo the
  BN254 prime.
* The external crates (`multilinear_polynomial`, `fiat_shamir`,
  `univariate_polynomial`) are not part of the repository's sources; the
  operations the core uses are modelled from the specification's interface
  contracts and marked as such in their doc comments.
* The Fiat-Shamir transcript's hash is abstracted into an explicit
  parameter `chal : Challenger`, a deterministic function of everything
  absorbed so far (the specification's contract for
  `get_random_challenge`).  All theorems are universally quantified over
  this function.
* Stateful Rust code (the transcript threaded through prover and verifier)
  becomes explicit state passing; early `return` becomes a short-circuit
  in a recursive function.
-/

namespace SumCheck

/-- Modulus of the BN254 base field, the field `ark_bn254::Fq` used
throughout `sum_check_protocol.rs`. -/
def bnP : Nat := 21888242871839275222246405745257275088696311157297823662689037894645226208583

/-- The scalar field of the implementation: `ark_bn254::Fq`. -/
abbrev Fq := ZMod bnP

/-- Extended-Euclid accumulator: `invAux fuel r0 r1 t0 t1` runs the
Euclidean algorithm on `(r0, r1)` while combining Bézout coefficients in
`Fq`; structural recursion on `fuel` keeps it kernel-computable. -/
def invAux : Nat → Nat → Nat → Fq → Fq → Fq
  | 0, _, _, t0, _ => t0
  | fuel+1, r0, r1, t0, t1 =>
    if r1 = 0 then t0 else invAux fuel r1 (r0 % r1) t1 (t0 - ((r0 / r1 : Nat) : Fq) * t1)

/-- Modelled from the spec: field division (multiplicative inverse) of the
external field arithmetic, computed by the extended Euclidean algorithm.
The fuel 1000 exceeds the worst-case number of Euclid steps for the
254-bit modulus. -/
def Fq.inv (a : Fq) : Fq := invAux 1000 bnP a.val 0 1

/-- Modelled from the spec: the Fiat-Shamir transcript state.  The Rust
transcript absorbs byte strings via `append(fq_vec_to_bytes(v))`; since
`fq_vec_to_bytes` is an injective serialization of field-element vectors,
the state is modelled as the list of absorbed vectors. -/
structure Transcript where
  absorbed : List (List Fq)
deriving DecidableEq

/-- Modelled from the spec: `Transcript::new()` creates an empty
transcript. -/
def Transcript.new : Transcript := ⟨[]⟩

/-- Modelled from the spec: `transcript.append(&fq_vec_to_bytes(&v))`
absorbs one vector of field elements. -/
def Transcript.append (t : Transcript) (v : List Fq) : Transcript :=
  ⟨t.absorbed ++ [v]⟩

/-- Modelled from the spec: the hash behind `get_random_challenge` is an
arbitrary deterministic function of everything absorbed so far.  All
definitions and theorems are parameterized by such a function. -/
abbrev Challenger := List (List Fq) → Fq

/-- Modelled from the spec: `transcript.get_random_challenge()` derives a
field element deterministically from the absorbed state. -/
def Transcript.get_random_challenge (t : Transcript) (chal : Challenger) : Fq :=
  chal t.absorbed

/-- Modelled from the spec: a multilinear polynomial in `num_of_vars`
variables stored as its vector of `2 ^ num_of_vars` evaluations over the
boolean hypercube in lexicographic order (leading variable = most
significant index bit). -/
structure MultilinearPoly where
  evaluation : List Fq
  num_of_vars : Nat
deriving DecidableEq

/-- Modelled from the spec: fixing the leading variable of an evaluation
vector to `r`.  The vector splits at its midpoint into the
"leading variable = 0" half and the "= 1" half, and each aligned pair is
combined linearly: `a + r * (b - a)`. -/
def pairEval (ev : List Fq) (r : Fq) : List Fq :=
  List.zipWith (fun a b => a + r * (b - a))
    (ev.take (ev.length / 2)) (ev.drop (ev.length / 2))

/-- Modelled from the spec: `MultilinearPoly::new(vec)` wraps an
evaluation vector; the variable count is the base-2 logarithm of the
length (the spec requires the length to be a power of two). -/
def MultilinearPoly.new (ev : List Fq) : MultilinearPoly :=
  ⟨ev, ev.length.log2⟩

/-- Modelled from the spec: `partial_evaluate(index, value)` fixes one
variable.  The core only ever calls it with `index = 0` (the leading
variable), which is what this model implements; the index argument is
kept for signature fidelity. -/
def MultilinearPoly.partial_evaluate (p : MultilinearPoly) (_index : Nat) (r : Fq) :
    MultilinearPoly :=
  ⟨pairEval p.evaluation r, p.num_of_vars - 1⟩

/-- Modelled from the spec: `evaluate(points)` computes the multilinear
extension at an arbitrary point by fixing the leading variable once per
coordinate; the final singleton's entry is the value. -/
def MultilinearPoly.evaluate (p : MultilinearPoly) (points : List Fq) : Fq :=
  (points.foldl pairEval p.evaluation).headD 0

/-- Modelled from the spec: one term of a composed polynomial, a product
of multilinear factors (`ProductPoly` in the external crate, with its
`evaluation` field holding the factors). -/
structure ProductPoly where
  evaluation : List MultilinearPoly
deriving DecidableEq

/-- Modelled from the spec: a composed polynomial, a sum of product
terms (`SumPoly` in the external crate). -/
structure SumPoly where
  polys : List ProductPoly
deriving DecidableEq

/-- Modelled from the spec: `get_degree()` is the maximum number of
multiplicative factors in any term, the per-variable degree bound. -/
def SumPoly.get_degree (s : SumPoly) : Nat :=
  (s.polys.map (fun p => p.evaluation.length)).foldl max 0

/-- Modelled from the spec: a product term's `partial_evaluate` fixes the
leading unbound variable of every factor. -/
def ProductPoly.partial_evaluate (p : ProductPoly) (r : Fq) : ProductPoly :=
  ⟨p.evaluation.map (fun f => f.partial_evaluate 0 r)⟩

/-- Modelled from the spec: `SumPoly::partial_evaluate(value)` fixes the
leading unbound variable across all terms. -/
def SumPoly.partial_evaluate (s : SumPoly) (r : Fq) : SumPoly :=
  ⟨s.polys.map (fun p => p.partial_evaluate r)⟩

/-- Modelled from the spec: a product term's `reduce` multiplies its
factors' evaluation vectors pointwise into one combined vector. -/
def ProductPoly.reduce (p : ProductPoly) : List Fq :=
  match p.evaluation with
  | [] => []
  | f :: fs => fs.foldl (fun acc g => List.zipWith (· * ·) acc g.evaluation) f.evaluation

/-- Modelled from the spec: `SumPoly::reduce()` adds the terms' reduced
vectors pointwise, collapsing the composed polynomial into a single
evaluation vector. -/
def SumPoly.reduce (s : SumPoly) : List Fq :=
  match s.polys.map ProductPoly.reduce with
  | [] => []
  | v :: vs => vs.foldl (fun acc w => List.zipWith (· + ·) acc w) v

/-- Coefficientwise sum of two dense coefficient vectors. -/
def polyAdd : List Fq → List Fq → List Fq
  | [], q => q
  | p, [] => p
  | a :: p, b :: q => (a + b) :: polyAdd p q

/-- Scalar multiple of a dense coefficient vector. -/
def polyScale (c : Fq) (p : List Fq) : List Fq := p.map (fun x => c * x)

/-- Multiplication of a dense coefficient vector by the linear factor
`X - a`. -/
def polyMulLin (a : Fq) (p : List Fq) : List Fq :=
  polyAdd (polyScale (-a) p) (0 :: p)

/-- Dense univariate polynomial of the external crate, stored by its
`coefficient` vector (constant term first). -/
structure UnivariatePoly where
  coefficient : List Fq
deriving DecidableEq

/-- Modelled from the spec: `UnivariatePoly::interpolate(points)` is
Lagrange interpolation producing dense coefficients: the sum over sample
points of `y_i * prod_j (X - x_j) / (x_i - x_j)`. -/
def UnivariatePoly.interpolate (points : List (Fq × Fq)) : UnivariatePoly :=
  ⟨(points.map (fun pt =>
      let others := points.filter (fun other => other.1 ≠ pt.1)
      let numer := others.foldl (fun acc other => polyMulLin other.1 acc) [1]
      let denom := others.foldl (fun acc other => acc * (pt.1 - other.1)) 1
      polyScale (pt.2 * Fq.inv denom) numer)).foldl polyAdd []⟩

/-- Record returned by the plain prover (`Proof` in the source). -/
structure Proof where
  proof_polynomials : List (List Fq)
  claimed_sum : Fq
deriving DecidableEq

/-- Record returned by the GKR prover (`GkrProof` in the source). -/
structure GkrProof where
  proof_polynomials : List (List Fq)
  claimed_sum : Fq
  random_challenges : List Fq
deriving DecidableEq

/-- Record returned by the GKR verifier (`GkrVerify` in the source). -/
structure GkrVerify where
  verified : Bool
  final_claimed_sum : Fq
  random_challenges : List Fq
deriving DecidableEq

/-- Source lines 46-53: the plain round polynomial.  The current
evaluation vector splits at its midpoint; the round proof is the pair
of half sums. -/
def get_round_partial_polynomial_proof (polynomial : List Fq) : List Fq :=
  let mid_point := polynomial.length / 2
  [(polynomial.take mid_point).sum, (polynomial.drop mid_point).sum]

/-- Source lines 25-44: the GKR round polynomial.  For each
`i < get_degree()` the leading variable is fixed to `i` and the reduced
vector is summed; the resulting `(i, y)` pairs are Lagrange-interpolated
into a dense coefficient vector. -/
def get_round_partial_polynomial_proof_gkr (composed_poly : SumPoly) : List Fq :=
  let degree := composed_poly.get_degree
  let poly_proof := (List.range degree).map
    (fun (i : Nat) => ((composed_poly.partial_evaluate (i : Fq)).reduce).sum)
  let points := poly_proof.enum.map (fun p => ((p.1 : Fq), p.2))
  (UnivariatePoly.interpolate points).coefficient

/-- Source lines 66-76, the loop body of `prove`, with the loop turned
into recursion on the round count.  Returns the round polynomials, the
derived challenges (a local of the Rust loop) and the final transcript
state. -/
def proveRounds (chal : Challenger) :
    Nat → Transcript → List Fq → List (List Fq) × List Fq × Transcript
  | 0, t, _ => ([], [], t)
  | n+1, t, ev =>
    let proof_poly := get_round_partial_polynomial_proof ev
    let t1 := t.append proof_poly
    let r := t1.get_random_challenge chal
    let rest := proveRounds chal n t1 (pairEval ev r)
    (proof_poly :: rest.1, r :: rest.2.1, rest.2.2)

/-- Source lines 55-60: the initial transcript of both `prove` and
`verify`: a fresh transcript that absorbs the evaluation vector and then
the claimed sum. -/
def initTranscript (evaluation : List Fq) (claimed_sum : Fq) : Transcript :=
  (Transcript.new.append evaluation).append [claimed_sum]

/-- Source lines 55-82: `prove`.  The claimed sum is the sum of the
evaluation vector; it and the vector seed the transcript, then
`num_of_vars` rounds run. -/
def prove (chal : Challenger) (polynomial : MultilinearPoly) : Proof :=
  let claimed_sum := polynomial.evaluation.sum
  let t := initTranscript polynomial.evaluation claimed_sum
  let res := proveRounds chal polynomial.num_of_vars t polynomial.evaluation
  ⟨res.1, claimed_sum⟩

/-- Source lines 93-109, the loop of `verify`, as recursion over the
round polynomials.  Each round rebuilds the round polynomial (the
`MultilinearPoly::new` wrapper leaves the vector unchanged), rejects if
its entries do not sum to the expected sum, absorbs it, derives the
challenge and updates the expected sum from entries 0 and 1 (the Rust
indexing `evaluation[0]`/`evaluation[1]`, total here via `getD`).
Returns `none` on rejection, otherwise the final expected sum and the
derived challenges.  The Rust local `current_poly` is updated in the
loop but never read afterwards, so it is not carried here. -/
def verifyRounds (chal : Challenger) :
    List (List Fq) → Transcript → Fq → Option (Fq × List Fq)
  | [], _, expected_sum => some (expected_sum, [])
  | poly :: rest, t, expected_sum =>
    if poly.sum = expected_sum then
      let t1 := t.append poly
      let r := t1.get_random_challenge chal
      match verifyRounds chal rest t1 (poly.getD 0 0 + r * (poly.getD 1 0 - poly.getD 0 0)) with
      | some (e, rs) => some (e, r :: rs)
      | none => none
    else none

/-- Source lines 84-113: `verify`.  The transcript is re-seeded exactly
as in `prove`; after the rounds, accept iff the final expected sum
equals the polynomial evaluated at the derived challenges. -/
def verify (chal : Challenger) (polynomial : MultilinearPoly) (proof : Proof) : Bool :=
  let t := initTranscript polynomial.evaluation proof.claimed_sum
  match verifyRounds chal proof.proof_polynomials t proof.claimed_sum with
  | some (e, random_challenges) => e = polynomial.evaluate random_challenges
  | none => false

/-- Source line 121: the round count of the GKR prover, read off the
first factor of the first term. -/
def gkrNumRounds (q : SumPoly) : Nat :=
  ((q.polys.getD 0 ⟨[]⟩).evaluation.getD 0 ⟨[], 0⟩).num_of_vars

/-- Source lines 126-138, the loop of `gkr_prove`, as recursion on the
round count.  Returns the round coefficient vectors, the challenges and
the final transcript state. -/
def gkr_proveRounds (chal : Challenger) :
    Nat → Transcript → SumPoly → List (List Fq) × List Fq × Transcript
  | 0, t, _ => ([], [], t)
  | n+1, t, q =>
    let proof_poly := get_round_partial_polynomial_proof_gkr q
    let t1 := t.append proof_poly
    let r := t1.get_random_challenge chal
    let rest := gkr_proveRounds chal n t1 (q.partial_evaluate r)
    (proof_poly :: rest.1, r :: rest.2.1, rest.2.2)

/-- Source lines 116-145: `gkr_prove`.  The transcript is caller-owned
and mutated in place in Rust; here the final state is returned alongside
the `GkrProof`. -/
def gkr_prove (chal : Challenger) (claimed_sum : Fq) (composed_polynomial : SumPoly)
    (transcript : Transcript) : GkrProof × Transcript :=
  let res := gkr_proveRounds chal (gkrNumRounds composed_polynomial) transcript
    composed_polynomial
  (⟨res.1, claimed_sum, res.2.1⟩, res.2.2)

/-- Source lines 155-176, the loop of `gkr_verify`.  On a round whose
values at 0 and 1 do not sum to the running claimed sum, the Rust code
returns at once with the sentinel record (`verified = false`, zero final
sum, a single zero challenge), discarding the challenges accumulated so
far — hence the explicit accumulator `acc`.  Returns the result together
with the final transcript state (dropped by the Rust function, which
consumes the transcript by value). -/
def gkr_verifyRounds (chal : Challenger) :
    List (List Fq) → Fq → Transcript → List Fq → GkrVerify × Transcript
  | [], claimed_sum, t, acc => (⟨true, claimed_sum, acc⟩, t)
  | poly :: rest, claimed_sum, t, acc =>
    let round_poly := MultilinearPoly.new poly
    let f_b_0 := round_poly.evaluate [0]
    let f_b_1 := round_poly.evaluate [1]
    if f_b_0 + f_b_1 = claimed_sum then
      let t1 := t.append poly
      let r_c := t1.get_random_challenge chal
      gkr_verifyRounds chal rest (round_poly.evaluate [r_c]) t1 (acc ++ [r_c])
    else (⟨false, 0, [0]⟩, t)

/-- Source lines 148-183: `gkr_verify`. -/
def gkr_verify (chal : Challenger) (round_polys : List (List Fq)) (claimed_sum : Fq)
    (transcript : Transcript) : GkrVerify :=
  (gkr_verifyRounds chal round_polys claimed_sum transcript []).1

/-- The challenges the plain prover derives round by round (the Rust
local `random_challenge`, one per loop iteration). -/
def proveChallenges (chal : Challenger) (P : MultilinearPoly) : List Fq :=
  (proveRounds chal P.num_of_vars (initTranscript P.evaluation P.evaluation.sum)
    P.evaluation).2.1

/-! ## List and field arithmetic lemmas -/

theorem zipWith_linear_sum (r : Fq) (xs : List Fq) :
    ∀ ys : List Fq, xs.length = ys.length →
      (List.zipWith (fun a b => a + r * (b - a)) xs ys).sum
        = xs.sum + r * (ys.sum - xs.sum) := by
  induction xs with
  | nil =>
    intro ys h
    cases ys with
    | nil => simp
    | cons y ys => simp at h
  | cons x xs ih =>
    intro ys h
    cases ys with
    | nil => simp at h
    | cons y ys =>
      simp only [List.zipWith_cons_cons, List.sum_cons]
      rw [ih ys (by simpa using h)]
      ring

theorem sum_take_add_sum_drop (l : List Fq) (n : Nat) :
    (l.take n).sum + (l.drop n).sum = l.sum := by
  rw [← List.sum_append, List.take_append_drop]

theorem pairEval_sum (ev : List Fq) (r : Fq) (m : Nat) (h : ev.length = 2 * m) :
    (pairEval ev r).sum
      = (ev.take (ev.length / 2)).sum
        + r * ((ev.drop (ev.length / 2)).sum - (ev.take (ev.length / 2)).sum) := by
  apply zipWith_linear_sum
  rw [List.length_take, List.length_drop]
  omega

theorem pairEval_length (ev : List Fq) (r : Fq) :
    (pairEval ev r).length = ev.length / 2 := by
  simp only [pairEval, List.length_zipWith, List.length_take, List.length_drop]
  omega

theorem foldl_pairEval_length (rs : List Fq) :
    ∀ ev : List Fq, (rs.foldl pairEval ev).length = ev.length / 2 ^ rs.length := by
  induction rs with
  | nil => intro ev; simp
  | cons r rs ih =>
    intro ev
    simp only [List.foldl_cons, ih, pairEval_length, List.length_cons]
    rw [Nat.div_div_eq_div_mul, pow_succ]
    ring_nf

theorem grpp_sum (ev : List Fq) :
    (get_round_partial_polynomial_proof ev).sum = ev.sum := by
  simp only [get_round_partial_polynomial_proof, List.sum_cons, List.sum_nil, add_zero]
  exact sum_take_add_sum_drop ev _

/-! ## Plain sum-check: completeness -/

/-- One honest run of the round loops: along the prover's rounds the
verifier never rejects, derives the same challenges, and ends with the
sum of the fully-folded evaluation vector as its expected sum. -/
theorem rounds_complete (chal : Challenger) :
    ∀ (n : Nat) (t : Transcript) (ev : List Fq), ev.length = 2 ^ n →
      verifyRounds chal (proveRounds chal n t ev).1 t ev.sum
        = some (((proveRounds chal n t ev).2.1.foldl pairEval ev).sum,
                (proveRounds chal n t ev).2.1) := by
  intro n
  induction n with
  | zero =>
    intro t ev h
    simp [proveRounds, verifyRounds]
  | succ n ih =>
    intro t ev h
    have heven : ev.length = 2 * 2 ^ n := by rw [h]; ring
    simp only [proveRounds]
    simp only [verifyRounds, grpp_sum, if_pos]
    have hupd :
        (get_round_partial_polynomial_proof ev).getD 0 0
          + (t.append (get_round_partial_polynomial_proof ev)).get_random_challenge chal
            * ((get_round_partial_polynomial_proof ev).getD 1 0
                - (get_round_partial_polynomial_proof ev).getD 0 0)
          = (pairEval ev
              ((t.append (get_round_partial_polynomial_proof ev)).get_random_challenge
                chal)).sum := by
      rw [pairEval_sum ev _ (2 ^ n) heven]
      rfl
    rw [hupd]
    have hlen : (pairEval ev
        ((t.append (get_round_partial_polynomial_proof ev)).get_random_challenge
          chal)).length = 2 ^ n := by
      rw [pairEval_length, heven]
      omega
    rw [ih (t.append (get_round_partial_polynomial_proof ev)) _ hlen]
    simp [List.foldl_cons]

theorem proveRounds_challenges_length (chal : Challenger) :
    ∀ (n : Nat) (t : Transcript) (ev : List Fq),
      (proveRounds chal n t ev).2.1.length = n := by
  intro n
  induction n with
  | zero => intro t ev; rfl
  | succ n ih => intro t ev; simp only [proveRounds, List.length_cons, ih]

theorem proveRounds_polys_length (chal : Challenger) :
    ∀ (n : Nat) (t : Transcript) (ev : List Fq),
      (proveRounds chal n t ev).1.length = n := by
  intro n
  induction n with
  | zero => intro t ev; rfl
  | succ n ih => intro t ev; simp only [proveRounds, List.length_cons, ih]

/-- C1 (amended): completeness of the plain variant.  For every
multilinear polynomial `P` (evaluation vector of length
`2 ^ num_of_vars`, the data-model invariant) and every deterministic
challenge derivation, `verify(P, prove(P))` returns `true`. -/
theorem plain_completeness (chal : Challenger) (P : MultilinearPoly)
    (h : P.evaluation.length = 2 ^ P.num_of_vars) :
    verify chal P (prove chal P) = true := by
  have hv := rounds_complete chal P.num_of_vars
    (initTranscript P.evaluation P.evaluation.sum) P.evaluation h
  unfold verify prove
  simp only
  rw [hv]
  have hlen1 : ((proveRounds chal P.num_of_vars
      (initTranscript P.evaluation P.evaluation.sum) P.evaluation).2.1.foldl pairEval
        P.evaluation).length = 1 := by
    rw [foldl_pairEval_length, proveRounds_challenges_length, h]
    exact Nat.div_self (pow_pos (by norm_num) P.num_of_vars)
  obtain ⟨x, hx⟩ := List.length_eq_one.mp hlen1
  simp only [MultilinearPoly.evaluate, hx]
  simp

/-- C1 witness: concrete scenario 1 of the specification, with the
challenge derivation fixed to the constant-zero hash. -/
theorem plain_completeness_witness :
    (([0, 0, 0, 2, 0, 10, 0, 17] : List Fq).length = 2 ^ 3)
      ∧ verify (fun _ => 0) ⟨[0, 0, 0, 2, 0, 10, 0, 17], 3⟩
          (prove (fun _ => 0) ⟨[0, 0, 0, 2, 0, 10, 0, 17], 3⟩) = true :=
  ⟨by decide, plain_completeness (fun _ => 0) ⟨[0, 0, 0, 2, 0, 10, 0, 17], 3⟩ (by decide)⟩

/-- C1 counterexample for the composed half of the claim.  The composed
polynomial `Q` is the single product term `P * P` with
`P = MultilinearPoly ⟨[0,0,0,1], 2⟩` (the multilinear extension of
`x * y`), whose true hypercube sum is `1` (first conjunct).  With the
challenge hash modelled as the constant `2`, the honest prover run
`gkr_prove(1, Q, fresh)` produces a proof that `gkr_verify` rejects:
each round interpolates only `get_degree() = 2` sample points for a
round polynomial of degree 2, so the verifier's reduced claim after
round one drifts from the true partial sum and round two fails its
consistency check. -/
theorem gkr_completeness_counterexample :
    (SumPoly.reduce ⟨[⟨[⟨[0, 0, 0, 1], 2⟩, ⟨[0, 0, 0, 1], 2⟩]⟩]⟩).sum = 1
      ∧ (gkr_verify (fun _ => 2)
          (gkr_prove (fun _ => 2) 1 ⟨[⟨[⟨[0, 0, 0, 1], 2⟩, ⟨[0, 0, 0, 1], 2⟩]⟩]⟩
            ⟨[]⟩).1.proof_polynomials
          1 ⟨[]⟩).verified = false := by
  decide

/-- C5: whenever a round of `gkr_verify` finds `f(0) + f(1)` different
from the running claimed sum, it returns immediately — for every
remaining round list, transcript state and accumulated challenge list —
with `verified = false`, a zero `final_claimed_sum`, the single-zero
challenge vector, and the transcript exactly as it was at the start of
the failing round (no further absorptions). -/
theorem gkr_verify_fail_fast (chal : Challenger) (poly : List Fq) (rest : List (List Fq))
    (claimed : Fq) (t : Transcript) (acc : List Fq)
    (h : (MultilinearPoly.new poly).evaluate [0] + (MultilinearPoly.new poly).evaluate [1]
          ≠ claimed) :
    gkr_verifyRounds chal (poly :: rest) claimed t acc = (⟨false, 0, [0]⟩, t)
      ∧ gkr_verify chal (poly :: rest) claimed t = ⟨false, 0, [0]⟩ := by
  constructor
  · simp only [gkr_verifyRounds]
    rw [if_neg h]
  · unfold gkr_verify
    simp only [gkr_verifyRounds]
    rw [if_neg h]

/-- C5 witness: a concrete failing first round (`f(0) + f(1) = 3 ≠ 5`)
with a nonempty tail, a primed transcript and a nonempty accumulator. -/
theorem gkr_verify_fail_fast_witness :
    ((MultilinearPoly.new [1, 2]).evaluate [0] + (MultilinearPoly.new [1, 2]).evaluate [1]
        ≠ (5 : Fq))
      ∧ gkr_verifyRounds (fun _ => 9) [[1, 2], [9, 9]] 5 ⟨[[3]]⟩ [7]
          = (⟨false, 0, [0]⟩, ⟨[[3]]⟩)
      ∧ gkr_verify (fun _ => 9) [[1, 2], [9, 9]] 5 ⟨[[3]]⟩ = ⟨false, 0, [0]⟩ :=
  ⟨by decide,
    (gkr_verify_fail_fast (fun _ => 9) [1, 2] [[9, 9]] 5 ⟨[[3]]⟩ [7] (by decide)).1,
    (gkr_verify_fail_fast (fun _ => 9) [1, 2] [[9, 9]] 5 ⟨[[3]]⟩ [7] (by decide)).2⟩

/-- C8: concrete scenario 2 of the specification.  For the polynomial
with evaluation vector `[0,3,2,5]`, the forged proof with claimed sum 20
and round polynomials `[[3,9],[1,2]]` is rejected by `verify` — for
every challenge derivation, since the first-round check
`3 + 9 = 12 ≠ 20` fails before any challenge is drawn. -/
theorem forged_proof_rejected (chal : Challenger) :
    verify chal (MultilinearPoly.new [0, 3, 2, 5]) ⟨[[3, 9], [1, 2]], 20⟩ = false := by
  have hr : verifyRounds chal [[3, 9], [1, 2]]
      (initTranscript (MultilinearPoly.new [0, 3, 2, 5]).evaluation 20) 20 = none := by
    simp only [verifyRounds]
    rw [if_neg (by decide : ¬ (([3, 9] : List Fq).sum = 20))]
  unfold verify
  simp only [hr]

/-- C9: `gkr_prove` copies its `claimed_sum` argument verbatim into the
returned record, for every input — it never recomputes, validates or
alters it. -/
theorem gkr_prove_claimed_sum_verbatim (chal : Challenger) (c : Fq) (q : SumPoly)
    (t : Transcript) : (gkr_prove chal c q t).1.claimed_sum = c := rfl

/-- C10: on an empty round list, `gkr_verify` returns `verified = true`,
the input claimed sum unchanged, and an empty challenge vector, and the
transcript state is left exactly as passed in. -/
theorem gkr_verify_empty (chal : Challenger) (c : Fq) (t : Transcript) :
    gkr_verify chal [] c t = ⟨true, c, []⟩
      ∧ (gkr_verifyRounds chal [] c t []).2 = t :=
  ⟨rfl, rfl⟩

/-! ## C2: the plain verifier against the specification's round description -/

/-- Round loop of the plain verifier written from the specification's
words (§4.2): each round is a pair `(v0, v1)`; reject as soon as
`v0 + v1` differs from the expected running sum; otherwise absorb the
pair, derive the challenge `r` from the transcript, and update the
expected sum to `v0 + r * (v1 - v0)`.  Written from the spec, to be
compared with `verifyRounds` translated from the source. -/
def verifySpecRounds (chal : Challenger) :
    List (Fq × Fq) → Transcript → Fq → Option (Fq × List Fq)
  | [], _, expected_sum => some (expected_sum, [])
  | (v0, v1) :: rest, t, expected_sum =>
    if v0 + v1 = expected_sum then
      let t1 := t.append [v0, v1]
      let r := t1.get_random_challenge chal
      match verifySpecRounds chal rest t1 (v0 + r * (v1 - v0)) with
      | some (e, rs) => some (e, r :: rs)
      | none => none
    else none

/-- Specification-side plain verifier (§4.2): after all rounds, accept
iff the final expected sum equals `P` evaluated at the full vector of
derived challenges. -/
def verifySpec (chal : Challenger) (P : MultilinearPoly) (claimed : Fq)
    (rounds : List (Fq × Fq)) : Bool :=
  match verifySpecRounds chal rounds (initTranscript P.evaluation claimed) claimed with
  | some (e, rs) => e = P.evaluate rs
  | none => false

theorem verifyRounds_eq_spec (chal : Challenger) :
    ∀ (polys : List (List Fq)) (t : Transcript) (e : Fq),
      (∀ l ∈ polys, l.length = 2) →
      verifyRounds chal polys t e
        = verifySpecRounds chal (polys.map (fun l => (l.getD 0 0, l.getD 1 0))) t e := by
  intro polys
  induction polys with
  | nil => intro t e h; rfl
  | cons l rest ih =>
    intro t e h
    obtain ⟨a, b, rfl⟩ := List.length_eq_two.mp (h l (List.mem_cons_self l rest))
    have hrest : ∀ x ∈ rest, x.length = 2 := fun x hx => h x (List.mem_cons_of_mem _ hx)
    simp only [verifyRounds, verifySpecRounds, List.map_cons, List.getD_cons_zero,
      List.getD_cons_succ, List.sum_cons, List.sum_nil, add_zero]
    by_cases hc : a + b = e
    · rw [if_pos hc, if_pos hc, ih _ _ hrest]
    · rw [if_neg hc, if_neg hc]

/-- C2: for every polynomial and every proof whose round entries are
pairs (the data-model shape of the plain `Proof`), `verify` computes
exactly the specification's round recurrence: reject as soon as
`v0 + v1` differs from the running expected sum (initially the claimed
sum), otherwise absorb the pair, derive `r`, update the expected sum to
`v0 + r * (v1 - v0)`, and after all rounds accept iff the final expected
sum equals `P` at the full challenge vector. -/
theorem verify_matches_spec (chal : Challenger) (P : MultilinearPoly) (proof : Proof)
    (h : ∀ l ∈ proof.proof_polynomials, l.length = 2) :
    verify chal P proof
      = verifySpec chal P proof.claimed_sum
          (proof.proof_polynomials.map (fun l => (l.getD 0 0, l.getD 1 0))) := by
  simp only [verify, verifySpec]
  rw [verifyRounds_eq_spec chal _ _ _ h]

/-- C2 witness: scenario 2's proof record, whose two rounds are pairs. -/
theorem verify_matches_spec_witness :
    (∀ l ∈ ([[3, 9], [1, 2]] : List (List Fq)), l.length = 2)
      ∧ verify (fun _ => 7) (MultilinearPoly.new [0, 3, 2, 5]) ⟨[[3, 9], [1, 2]], 20⟩
          = verifySpec (fun _ => 7) (MultilinearPoly.new [0, 3, 2, 5]) 20
              (([[3, 9], [1, 2]] : List (List Fq)).map (fun l => (l.getD 0 0, l.getD 1 0))) :=
  ⟨by decide,
    verify_matches_spec (fun _ => 7) (MultilinearPoly.new [0, 3, 2, 5])
      ⟨[[3, 9], [1, 2]], 20⟩ (by decide)⟩

/-! ## C3: the GKR prover's round polynomials -/

/-- Specification-side GKR round polynomial (§4.3 a-b): evaluate the
current composed polynomial's univariate restriction at exactly the
`d = get_degree()` sample points `0, 1, …, d-1` (fix the leading
variable, sum the reduced vector) and Lagrange-interpolate the `d`
`(x, y)` pairs into a dense coefficient vector. -/
def gkrRoundPolySpec (q : SumPoly) : List Fq :=
  (UnivariatePoly.interpolate
    ((List.range q.get_degree).map
      (fun (i : Nat) => ((i : Fq), ((q.partial_evaluate (i : Fq)).reduce).sum)))).coefficient

theorem enum_map_natCast (f : Nat → Fq) (d : Nat) :
    ((List.range d).map f).enum.map (fun p => ((p.1 : Fq), p.2))
      = (List.range d).map (fun (i : Nat) => ((i : Fq), f i)) := by
  apply List.ext_getElem
  · simp
  · intro i h1 h2
    simp [List.getElem_enum]

theorem grppg_eq_spec (q : SumPoly) :
    get_round_partial_polynomial_proof_gkr q = gkrRoundPolySpec q := by
  unfold get_round_partial_polynomial_proof_gkr gkrRoundPolySpec
  simp only
  rw [enum_map_natCast]

theorem gkr_proveRounds_getD (chal : Challenger) :
    ∀ (n : Nat) (t : Transcript) (q : SumPoly) (i : Nat), i < n →
      (gkr_proveRounds chal n t q).1.getD i []
        = get_round_partial_polynomial_proof_gkr
            (((gkr_proveRounds chal n t q).2.1.take i).foldl SumPoly.partial_evaluate q) := by
  intro n
  induction n with
  | zero => intro t q i hi; exact absurd hi (Nat.not_lt_zero i)
  | succ n ih =>
    intro t q i hi
    cases i with
    | zero =>
      simp only [gkr_proveRounds, List.getD_cons_zero, List.take_zero, List.foldl_nil]
    | succ i =>
      simp only [gkr_proveRounds, List.getD_cons_succ, List.take_succ_cons, List.foldl_cons]
      exact ih _ _ i (Nat.lt_of_succ_lt_succ hi)

/-- C3: in every round `i` of `gkr_prove`, the round's proof entry is
the Lagrange interpolation, through the `d = get_degree()` points
`0, …, d-1`, of the univariate restriction samples of the current
composed polynomial — the input polynomial with the leading variable
fixed to each of the previous rounds' challenges in turn, each sample
obtained by fixing the leading variable to the sample index and summing
the `reduce()` output. -/
theorem gkr_prove_round_poly (chal : Challenger) (c : Fq) (q : SumPoly) (t : Transcript)
    (i : Nat) (hi : i < gkrNumRounds q) :
    (gkr_prove chal c q t).1.proof_polynomials.getD i []
      = gkrRoundPolySpec
          (((gkr_prove chal c q t).1.random_challenges.take i).foldl
            SumPoly.partial_evaluate q) := by
  unfold gkr_prove
  simp only
  rw [gkr_proveRounds_getD chal _ t q i hi, grppg_eq_spec]

/-- C3 witness: the second round (i = 1) of the two-variable composed
polynomial `P * P` with `P = ⟨[0,0,0,1], 2⟩` under the constant-2
challenge hash. -/
theorem gkr_prove_round_poly_witness :
    (1 < gkrNumRounds ⟨[⟨[⟨[0, 0, 0, 1], 2⟩, ⟨[0, 0, 0, 1], 2⟩]⟩]⟩)
      ∧ (gkr_prove (fun _ => 2) 1 ⟨[⟨[⟨[0, 0, 0, 1], 2⟩, ⟨[0, 0, 0, 1], 2⟩]⟩]⟩
            ⟨[]⟩).1.proof_polynomials.getD 1 []
          = gkrRoundPolySpec
              (((gkr_prove (fun _ => 2) 1 ⟨[⟨[⟨[0, 0, 0, 1], 2⟩, ⟨[0, 0, 0, 1], 2⟩]⟩]⟩
                  ⟨[]⟩).1.random_challenges.take 1).foldl
                SumPoly.partial_evaluate ⟨[⟨[⟨[0, 0, 0, 1], 2⟩, ⟨[0, 0, 0, 1], 2⟩]⟩]⟩) :=
  ⟨by decide,
    gkr_prove_round_poly (fun _ => 2) 1 ⟨[⟨[⟨[0, 0, 0, 1], 2⟩, ⟨[0, 0, 0, 1], 2⟩]⟩]⟩
      ⟨[]⟩ 1 (by decide)⟩

/-! ## C4: the plain prover's round polynomials and challenge schedule -/

/-- Specification-side plain round polynomial, following the claim's
words: the current evaluation vector split at its midpoint, with the
pair of half sums as the round polynomial. -/
def roundPairSpec (ev : List Fq) : List Fq :=
  [(ev.take (ev.length / 2)).sum, (ev.drop (ev.length / 2)).sum]

theorem proveRounds_polys_getD (chal : Challenger) :
    ∀ (n : Nat) (t : Transcript) (ev : List Fq) (i : Nat), i < n →
      (proveRounds chal n t ev).1.getD i []
        = get_round_partial_polynomial_proof
            (((proveRounds chal n t ev).2.1.take i).foldl pairEval ev) := by
  intro n
  induction n with
  | zero => intro t ev i hi; exact absurd hi (Nat.not_lt_zero i)
  | succ n ih =>
    intro t ev i hi
    cases i with
    | zero =>
      simp only [proveRounds, List.getD_cons_zero, List.take_zero, List.foldl_nil]
    | succ i =>
      simp only [proveRounds, List.getD_cons_succ, List.take_succ_cons, List.foldl_cons]
      exact ih _ _ i (Nat.lt_of_succ_lt_succ hi)

theorem proveRounds_chal_getD (chal : Challenger) :
    ∀ (n : Nat) (t : Transcript) (ev : List Fq) (i : Nat), i < n →
      (proveRounds chal n t ev).2.1.getD i 0
        = chal (t.absorbed ++ (proveRounds chal n t ev).1.take (i + 1)) := by
  intro n
  induction n with
  | zero => intro t ev i hi; exact absurd hi (Nat.not_lt_zero i)
  | succ n ih =>
    intro t ev i hi
    cases i with
    | zero =>
      simp [proveRounds, Transcript.get_random_challenge, Transcript.append]
    | succ i =>
      simp only [proveRounds, List.getD_cons_succ, List.take_succ_cons]
      rw [ih _ _ i (Nat.lt_of_succ_lt_succ hi)]
      simp [Transcript.append, List.append_assoc]

/-- C4: in every round `i` of the plain prover, the round polynomial
appended to the proof is exactly the pair (sum of first half, sum of
second half) of the current evaluation vector — the input vector with
the leading variable fixed to each previous round's challenge in turn —
split at its midpoint; and the round's single challenge is derived from
the transcript immediately after absorbing that pair, i.e. from the two
initial absorptions followed by the first `i + 1` round pairs. -/
theorem prove_round_structure (chal : Challenger) (P : MultilinearPoly) (i : Nat)
    (hi : i < P.num_of_vars) :
    (prove chal P).proof_polynomials.getD i []
        = roundPairSpec (((proveChallenges chal P).take i).foldl pairEval P.evaluation)
      ∧ (proveChallenges chal P).getD i 0
        = chal ([P.evaluation, [P.evaluation.sum]]
            ++ (prove chal P).proof_polynomials.take (i + 1)) := by
  constructor
  · have hp := proveRounds_polys_getD chal P.num_of_vars
      (initTranscript P.evaluation P.evaluation.sum) P.evaluation i hi
    unfold prove proveChallenges
    simp only
    rw [hp]
    rfl
  · have hc := proveRounds_chal_getD chal P.num_of_vars
      (initTranscript P.evaluation P.evaluation.sum) P.evaluation i hi
    unfold prove proveChallenges
    simp only
    rw [hc]
    rfl

/-- C4 witness: round 1 of the prover on scenario 1's polynomial, under
the challenge hash returning the absorbed count. -/
theorem prove_round_structure_witness :
    (1 < (⟨[0, 0, 0, 2, 0, 10, 0, 17], 3⟩ : MultilinearPoly).num_of_vars)
      ∧ ((prove (fun l => (l.length : Fq)) ⟨[0, 0, 0, 2, 0, 10, 0, 17], 3⟩
            ).proof_polynomials.getD 1 []
          = roundPairSpec
              (((proveChallenges (fun l => (l.length : Fq))
                  ⟨[0, 0, 0, 2, 0, 10, 0, 17], 3⟩).take 1).foldl pairEval
                ([0, 0, 0, 2, 0, 10, 0, 17] : List Fq))
        ∧ (proveChallenges (fun l => (l.length : Fq))
              ⟨[0, 0, 0, 2, 0, 10, 0, 17], 3⟩).getD 1 0
          = (fun l : List (List Fq) => (l.length : Fq))
              ([([0, 0, 0, 2, 0, 10, 0, 17] : List Fq),
                  [([0, 0, 0, 2, 0, 10, 0, 17] : List Fq).sum]]
                ++ (prove (fun l => (l.length : Fq)) ⟨[0, 0, 0, 2, 0, 10, 0, 17], 3⟩
                    ).proof_polynomials.take 2)) :=
  ⟨by decide,
    prove_round_structure (fun l => (l.length : Fq)) ⟨[0, 0, 0, 2, 0, 10, 0, 17], 3⟩ 1
      (by decide)⟩

/-! ## C6: round counts -/

theorem gkr_proveRounds_lengths (chal : Challenger) :
    ∀ (n : Nat) (t : Transcript) (q : SumPoly),
      (gkr_proveRounds chal n t q).1.length = n
        ∧ (gkr_proveRounds chal n t q).2.1.length = n := by
  intro n
  induction n with
  | zero => intro t q; exact ⟨rfl, rfl⟩
  | succ n ih =>
    intro t q
    constructor
    · simp only [gkr_proveRounds, List.length_cons, (ih _ _).1]
    · simp only [gkr_proveRounds, List.length_cons, (ih _ _).2]

/-- C6: the proof returned by `prove` has exactly `num_of_vars` round
polynomials, and — for a well-formed composed polynomial, i.e. one with
at least one term, no empty products, and all factors sharing the
variable count `v` — the `GkrProof` returned by `gkr_prove` has exactly
`v` round coefficient vectors and `v` challenges. -/
theorem round_count_invariant (chal : Challenger) (P : MultilinearPoly) (c : Fq)
    (q : SumPoly) (t : Transcript) (v : Nat)
    (h1 : q.polys ≠ [])
    (h2 : ∀ term ∈ q.polys, term.evaluation ≠ [])
    (h3 : ∀ term ∈ q.polys, ∀ f ∈ term.evaluation, f.num_of_vars = v) :
    (prove chal P).proof_polynomials.length = P.num_of_vars
      ∧ (gkr_prove chal c q t).1.proof_polynomials.length = v
      ∧ (gkr_prove chal c q t).1.random_challenges.length = v := by
  have hnum : gkrNumRounds q = v := by
    obtain ⟨tp, trest, hq⟩ := List.exists_cons_of_ne_nil h1
    have htp : tp ∈ q.polys := by rw [hq]; exact List.mem_cons_self tp trest
    obtain ⟨f0, frest, hf⟩ := List.exists_cons_of_ne_nil (h2 tp htp)
    have hf0 : f0 ∈ tp.evaluation := by rw [hf]; exact List.mem_cons_self f0 frest
    unfold gkrNumRounds
    rw [hq, List.getD_cons_zero, hf, List.getD_cons_zero]
    exact h3 tp htp f0 hf0
  refine ⟨?_, ?_, ?_⟩
  · unfold prove
    simp only
    exact proveRounds_polys_length chal P.num_of_vars _ _
  · unfold gkr_prove
    simp only
    rw [← hnum]
    exact (gkr_proveRounds_lengths chal _ _ _).1
  · unfold gkr_prove
    simp only
    rw [← hnum]
    exact (gkr_proveRounds_lengths chal _ _ _).2

/-- C6 witness: scenario 1's polynomial for the plain half and the
two-variable composed polynomial `P * P` for the GKR half. -/
theorem round_count_invariant_witness :
    ((⟨[⟨[⟨[0, 0, 0, 1], 2⟩, ⟨[0, 0, 0, 1], 2⟩]⟩]⟩ : SumPoly).polys ≠ []
        ∧ (∀ term ∈ (⟨[⟨[⟨[0, 0, 0, 1], 2⟩, ⟨[0, 0, 0, 1], 2⟩]⟩]⟩ : SumPoly).polys,
            term.evaluation ≠ [])
        ∧ (∀ term ∈ (⟨[⟨[⟨[0, 0, 0, 1], 2⟩, ⟨[0, 0, 0, 1], 2⟩]⟩]⟩ : SumPoly).polys,
            ∀ f ∈ term.evaluation, f.num_of_vars = 2))
      ∧ ((prove (fun _ => 3) ⟨[0, 0, 0, 2, 0, 10, 0, 17], 3⟩).proof_polynomials.length = 3
        ∧ (gkr_prove (fun _ => 3) 1 ⟨[⟨[⟨[0, 0, 0, 1], 2⟩, ⟨[0, 0, 0, 1], 2⟩]⟩]⟩
              ⟨[]⟩).1.proof_polynomials.length = 2
        ∧ (gkr_prove (fun _ => 3) 1 ⟨[⟨[⟨[0, 0, 0, 1], 2⟩, ⟨[0, 0, 0, 1], 2⟩]⟩]⟩
              ⟨[]⟩).1.random_challenges.length = 2) :=
  ⟨⟨by decide, by decide, by decide⟩,
    round_count_invariant (fun _ => 3) ⟨[0, 0, 0, 2, 0, 10, 0, 17], 3⟩ 1
      ⟨[⟨[⟨[0, 0, 0, 1], 2⟩, ⟨[0, 0, 0, 1], 2⟩]⟩]⟩ ⟨[]⟩ 2
      (by decide) (by decide) (by decide)⟩

/-! ## C7: determinism -/

/-- C7: the provers are deterministic functions of their inputs — two
runs of `prove` on the same polynomial (same evaluation vector and
variable count) produce identical `Proof` records, and two runs of
`gkr_prove` on the same claimed sum, composed polynomial, and initial
transcript state produce identical `GkrProof` records (challenge
sequence included) and identical final transcripts. -/
theorem prover_determinism (chal : Challenger) (P Q : MultilinearPoly) (c : Fq)
    (q : SumPoly) (t u : Transcript)
    (hev : P.evaluation = Q.evaluation) (hnv : P.num_of_vars = Q.num_of_vars)
    (ht : t.absorbed = u.absorbed) :
    prove chal P = prove chal Q ∧ gkr_prove chal c q t = gkr_prove chal c q u := by
  have hP : P = Q := by cases P; cases Q; simp_all
  have hT : t = u := by cases t; cases u; simp_all
  subst hP
  subst hT
  exact ⟨rfl, rfl⟩

/-- C7 witness: two syntactically distinct but equal inputs. -/
theorem prover_determinism_witness :
    (([0, 3, 2, 5] : List Fq) = [0, 3, 2, 5+ 0]
        ∧ (2 : Nat) = 2
        ∧ ([[(1 : Fq)]] : List (List Fq)) = [[1]])
      ∧ (prove (fun _ => 4) ⟨[0, 3, 2, 5], 2⟩ = prove (fun _ => 4) ⟨[0, 3, 2, 5 + 0], 2⟩
        ∧ gkr_prove (fun _ => 4) 7 ⟨[⟨[⟨[0, 0, 0, 1], 2⟩]⟩]⟩ ⟨[[1]]⟩
            = gkr_prove (fun _ => 4) 7 ⟨[⟨[⟨[0, 0, 0, 1], 2⟩]⟩]⟩ ⟨[[1]]⟩) :=
  ⟨⟨by decide, rfl, rfl⟩,
    prover_determinism (fun _ => 4) ⟨[0, 3, 2, 5], 2⟩ ⟨[0, 3, 2, 5 + 0], 2⟩ 7
      ⟨[⟨[⟨[0, 0, 0, 1], 2⟩]⟩]⟩ ⟨[[1]]⟩ ⟨[[1]]⟩ (by decide) rfl rfl⟩

end SumCheck
